import Mathlib

/-!
Verification of the rhts hierarchical time-series engine.

The repository is an R binding (`src/rust/src/hierarchy.rs`, `helpers.rs`,
`lib.rs`) over a core crate `hts_core` whose source is not part of the
repository sample.  Definitions below marked `Modelled from the spec:` embed
the missing core (HierarchySpec validation, key extraction, level
enumeration, summation-matrix construction, aggregation) faithfully from the
specification's words; the remaining definitions (`to_robj` column
conversion, the `as i32` cast of the counting queries) are embedded from the
binding source itself.

Conventions of the shallow embedding:
* column values are `String`s, periods are `Nat`, observation values are
  `Int` (exact accumulation, as the spec requires no lossy narrowing);
* tabular input rows arrive already projected onto the spec's columns: a
  `Row` carries the hierarchy-column values (top to bottom), the
  group-column values (in spec order), the period and the value;
* machine integers are modelled as `Nat`/`Int` with explicit wrap-around
  where the source performs an `as` cast.
-/

/-- Error kinds of the core, from the spec's §7 error handling design. -/
inductive HtsError
  | InvalidSpecification
  | MissingColumn
  | UnsupportedColumnType
  | InconsistentNesting
  | DuplicateObservation
  | IncompleteSeries
deriving DecidableEq, Repr

/-- Modelled from the spec: `HierarchySpec` — ordered hierarchy columns plus
cross-sectional group columns (the struct lives in the missing `hts_core`
crate; the binding exposes it as `HtsSpec`). -/
structure HierarchySpec where
  hierarchy : List String
  groups : List String
deriving DecidableEq, Repr

namespace HierarchySpec

/-- Modelled from the spec: `HierarchySpec::new(hierarchy, groups)` "fails
with `InvalidSpecification` if a column appears in both lists or if both
lists are empty"; otherwise it is pure value construction. -/
def new (hierarchy groups : List String) : Except HtsError HierarchySpec :=
  if hierarchy.isEmpty && groups.isEmpty then
    .error .InvalidSpecification
  else if hierarchy.any (fun c => groups.contains c) then
    .error .InvalidSpecification
  else
    .ok ⟨hierarchy, groups⟩

/-- Modelled from the spec: `hierarchical(columns)` — shorthand for
`groups = ∅`. -/
def hierarchical (columns : List String) : Except HtsError HierarchySpec :=
  new columns []

/-- Modelled from the spec: `grouped(columns)` — shorthand for
`hierarchy = ∅`. -/
def grouped (columns : List String) : Except HtsError HierarchySpec :=
  new [] columns

end HierarchySpec

/-- One input observation, already projected onto the spec's columns:
hierarchy-column values top to bottom, group-column values in spec order,
the period and the numeric value. -/
structure Row where
  hvals : List String
  gvals : List String
  period : Nat
  value : Int
deriving DecidableEq, Repr

/-- Modelled from the spec: a `BottomKey` is "a tuple of (hierarchy-path
values, group values) identifying one bottom-level series". -/
structure BottomKey where
  hvals : List String
  gvals : List String
deriving DecidableEq, Repr

/-- The bottom key of a row. -/
def rowKey (r : Row) : BottomKey := ⟨r.hvals, r.gvals⟩

/-- First-occurrence deduplication: keeps each element's first occurrence,
in order.  Used for the key extractor's "stable order (first occurrence)"
and for the distinct-period list. -/
def dedupFirst {α : Type} [DecidableEq α] : List α → List α
  | [] => []
  | a :: l => a :: (dedupFirst l).filter (fun b => b ≠ a)

/-- One nesting-invariant test between two keys at hierarchy level `i`:
if both keys carry a value at the lower level `i+1` and the values agree,
the values at the level `i` above must agree as well. -/
def nestStepOk (k1 k2 : BottomKey) (i : Nat) : Bool :=
  match k1.hvals[i+1]?, k2.hvals[i+1]? with
  | some a, some b => !(a == b) || (k1.hvals[i]? == k2.hvals[i]?)
  | _, _ => true

/-- Modelled from the spec: the key extractor's strict-nesting scan — "the
same lower-hierarchy value … observed under two different values of a
higher-hierarchy column" violates the invariant. -/
def nestingOk (keys : List BottomKey) (depth : Nat) : Bool :=
  keys.all fun k1 => keys.all fun k2 =>
    (List.range depth).all fun i => nestStepOk k1 k2 i

/-- Whether the list has a repeated element. -/
def hasDup {α : Type} [DecidableEq α] (l : List α) : Bool :=
  !(dedupFirst l).length == l.length

/-- One aggregation node: a hierarchy-path of length `0..=D` (length 0 is
the hierarchy-dimension Total) and, per group column, either a fixed value
(`some v`) or the group's Total (`none`). -/
structure AggNode where
  hpath : List String
  gassign : List (Option String)
deriving DecidableEq, Repr

/-- Whether the node path `p` is an initial segment of a key's hierarchy
values `l`. -/
def hpathMatches : List String → List String → Bool
  | [], _ => true
  | _ :: _, [] => false
  | a :: p, b :: l => a == b && hpathMatches p l

/-- Node membership: a bottom key contributes to a node when the node's
hierarchy path is an initial segment of the key's and every fixed group
value matches the key's value for that group. -/
def memberOf (n : AggNode) (k : BottomKey) : Bool :=
  hpathMatches n.hpath k.hvals &&
    (n.gassign.zip k.gvals).all fun gv =>
      match gv.1 with
      | none => true
      | some w => w == gv.2

/-- Fix the groups selected by the mask to the key's values, aggregating
the rest away (`none`). -/
def applyMask (mask : List Bool) (gvals : List String) : List (Option String) :=
  List.zipWith (fun b v => if b then some v else none) mask gvals

/-- All group-subset masks of the given size, the empty subset first. -/
def allMasks : Nat → List (List Bool)
  | 0 => [[]]
  | n + 1 => (allMasks n).map (false :: ·) ++ (allMasks n).map (true :: ·)

/-- Modelled from the spec: nodes at one observed hierarchy path — every
group subset, "assigned concrete values drawn only from combinations
observed in the data restricted to that hierarchy prefix". -/
def nodesAtPath (keys : List BottomKey) (nGroups : Nat) (p : List String) :
    List AggNode :=
  (allMasks nGroups).flatMap fun m =>
    (dedupFirst ((keys.filter fun k => hpathMatches p k.hvals).map
      fun k => applyMask m k.gvals)).map fun a => ⟨p, a⟩

/-- Modelled from the spec: nodes at one hierarchy depth — restricted to
the path values "that actually occur in the observed BottomKeys". -/
def nodesAtDepth (keys : List BottomKey) (nGroups : Nat) (i : Nat) :
    List AggNode :=
  (dedupFirst (keys.map fun k => k.hvals.take i)).flatMap
    (nodesAtPath keys nGroups)

/-- Modelled from the spec: the level enumerator — hierarchy path lengths
`0..=D` crossed with group subsets, "deduplicated during enumeration" by
node identity. -/
def enumerate (spec : HierarchySpec) (keys : List BottomKey) : List AggNode :=
  dedupFirst <|
    (List.range (spec.hierarchy.length + 1)).flatMap
      (nodesAtDepth keys spec.groups.length)

/-- Modelled from the spec: the constructed engine — immutable spec, input
snapshot, extracted bottom keys in first-seen order, enumerated node list
and distinct periods. -/
structure Hts where
  spec : HierarchySpec
  rows : List Row
  keys : List BottomKey
  nodes : List AggNode
  periods : List Nat
deriving DecidableEq, Repr

namespace Hts

/-- Modelled from the spec: engine construction
`new(spec, data, time_col, value_col)` — the key-extraction scan records
first-seen distinct bottom keys, fails with `InconsistentNesting` on a
strict-nesting violation and with `DuplicateObservation` on a repeated
(BottomKey, period) pair, then enumerates the node set.  (`MissingColumn`
projection happens before our `Row` representation and is not modelled.) -/
def new (spec : HierarchySpec) (rows : List Row) : Except HtsError Hts :=
  let keys := dedupFirst (rows.map rowKey)
  if !nestingOk keys spec.hierarchy.length then
    .error .InconsistentNesting
  else if hasDup (rows.map fun r => (rowKey r, r.period)) then
    .error .DuplicateObservation
  else
    .ok ⟨spec, rows, keys, enumerate spec keys,
      dedupFirst (rows.map fun r => r.period)⟩

/-- Number of series across all aggregation levels. -/
def n_series (h : Hts) : Nat := h.nodes.length

/-- Number of bottom-level series. -/
def n_bottom (h : Hts) : Nat := h.keys.length

/-- Number of distinct periods. -/
def n_periods (h : Hts) : Nat := h.periods.length

/-- The 0/1 summation matrix: one row per node, one column per bottom key,
entry 1 exactly when the bottom key contributes to the node. -/
def summationMatrix (h : Hts) : List (List Int) :=
  h.nodes.map fun n => h.keys.map fun k => if memberOf n k then 1 else 0

/-- Bottom-level value of one key at one period: the sum of the values of
the input rows carrying that key and period (zero when absent). -/
def bottomValue (h : Hts) (k : BottomKey) (t : Nat) : Int :=
  ((h.rows.filter fun r => rowKey r == k && r.period == t).map
    (fun r => r.value)).sum

/-- The bottom-level value vector of a period, in bottom-key column
order. -/
def bottomVector (h : Hts) (t : Nat) : List Int :=
  h.keys.map fun k => bottomValue h k t

end Hts

/-- The grand-total node: empty hierarchy path, every group aggregated
away. -/
def grandTotal (spec : HierarchySpec) : AggNode :=
  ⟨[], List.replicate spec.groups.length none⟩

/-- A bottom key promoted to a node: full hierarchy path, all groups
fixed. -/
def bottomNode (k : BottomKey) : AggNode :=
  ⟨k.hvals, k.gvals.map some⟩

/-- Dot product of two integer vectors. -/
def dotInt (xs ys : List Int) : Int :=
  (List.zipWith (fun a b => a * b) xs ys).sum

/-- Matrix–vector product, one dot product per row. -/
def matVec (m : List (List Int)) (v : List Int) : List Int :=
  m.map fun row => dotInt row v

namespace Hts

/-- Modelled from the spec: `aggregate_all()` — for every distinct period,
build the bottom-level value vector in column order, apply the summation
matrix, and emit one output row per (node, period). -/
def aggregate_all (h : Hts) : List (AggNode × Nat × Int) :=
  h.periods.flatMap fun t =>
    (h.nodes.zip (matVec h.summationMatrix (h.bottomVector t))).map
      fun p => (p.1, t, p.2)

/-- Modelled from the spec: the independent recomputation "via group-by-sum
on the raw bottom data" — sum the raw input values over the rows whose key
belongs to the node at the given period. -/
def groupBySum (h : Hts) (n : AggNode) (t : Nat) : Int :=
  ((h.rows.filter fun r => memberOf n (rowKey r) && r.period == t).map
    (fun r => r.value)).sum

end Hts

/-- Well-formedness of the projected input w.r.t. a spec: every row carries
one value per hierarchy column and one per group column. -/
def wf (spec : HierarchySpec) (rows : List Row) : Prop :=
  ∀ r ∈ rows, r.hvals.length = spec.hierarchy.length ∧
    r.gvals.length = spec.groups.length

/-- The spec's worked example: hierarchy State → City, one group Sector,
two states with two cities each, two sectors, one period. -/
def exSpec : HierarchySpec := ⟨["State", "City"], ["Sector"]⟩

/-- Bottom data for `exSpec`: all 8 (state, city, sector) combinations at
period 1. -/
def exRows : List Row :=
  [⟨["NSW", "Syd"], ["Ind"], 1, 10⟩, ⟨["NSW", "New"], ["Ind"], 1, 20⟩,
   ⟨["VIC", "Mel"], ["Ind"], 1, 30⟩, ⟨["VIC", "Gee"], ["Ind"], 1, 40⟩,
   ⟨["NSW", "Syd"], ["Agr"], 1, 1⟩, ⟨["NSW", "New"], ["Agr"], 1, 2⟩,
   ⟨["VIC", "Mel"], ["Agr"], 1, 3⟩, ⟨["VIC", "Gee"], ["Agr"], 1, 4⟩]

/-- The engine `Hts.new exSpec exRows` constructs. -/
def exHts : Hts :=
  ⟨exSpec, exRows, dedupFirst (exRows.map rowKey),
    enumerate exSpec (dedupFirst (exRows.map rowKey)),
    dedupFirst (exRows.map fun r => r.period)⟩

/-- A (symbolic) engine whose node count alone exceeds `i32::MAX` (no
bottom keys, no periods), for exercising the cast of `n_series`. -/
def bigEngine : Hts :=
  ⟨⟨[], []⟩, [], [], List.replicate (2 ^ 31) ⟨[], []⟩, []⟩

/-! Section: The binding layer, embedded from the source

`helpers.rs::to_robj` converts a polars `DataFrame` to an R data frame
column by column, dispatching on the column's semantic dtype category
(`is_float()`, `is_integer()`, `is_string() || is_factor()` on input,
`is_date()`) and then downcasting with a fixed-width accessor
(`s.f64()`, `s.i32()`, `s.str()`, `s.date()`) followed by `.unwrap()`.
The float and integer categories span several physical widths
(Float32/Float64, Int8..Int64/UInt8..UInt64), but the accessor succeeds
only for Float64 resp. Int32: on any other width its `.unwrap()` panics.
We tag float and integer columns with their physical width and model the
panic as `none`.  An `f64` cell is either a payload or `NaN`; the payload
stays abstract (`RDouble.val`) since `to_robj` only passes it through. -/

/-- An R double: either NaN or an (abstract) finite payload. -/
inductive RDouble
  | nan
  | val (payload : Int)
deriving DecidableEq, Repr

/-- The sentinel `i32::MIN` that `to_robj` substitutes for an integer null. -/
def i32Min : Int := -2147483648

/-- Physical width of a polars float column; `is_float()` accepts both. -/
inductive PFloatWidth
  | f32
  | f64
deriving DecidableEq, Repr

/-- Physical width of a polars integer column; `is_integer()` accepts all
of them. -/
inductive PIntWidth
  | i8
  | i16
  | i32
  | i64
  | u8
  | u16
  | u32
  | u64
deriving DecidableEq, Repr

/-- The cell data of one polars column, nullable per cell, tagged by
dtype category and (for floats and integers) physical width; `other`
stands for any dtype outside the four handled categories. -/
inductive PColumnData
  | floats (width : PFloatWidth) (cells : List (Option RDouble))
  | ints (width : PIntWidth) (cells : List (Option Int))
  | strs (cells : List (Option String))
  | dates (cells : List (Option Int))
  | other
deriving DecidableEq, Repr

/-- One polars column: name plus cell data. -/
structure PolarsSeries where
  name : String
  cells : PColumnData
deriving DecidableEq, Repr

/-- One converted R column. -/
inductive RColumn
  | doubles (cells : List RDouble)
  | integers (cells : List Int)
  | strings (cells : List String)
  | dateVals (cells : List Int)
  | rnull
deriving DecidableEq, Repr

/-- From the source (`helpers.rs` lines 55–65): the per-column branch of
`to_robj` — nulls become `NaN` / `i32::MIN` / `""` / `0` depending on
dtype category, any dtype outside the four categories becomes R `NULL`;
but a float column that is not Float64, or an integer column that is not
Int32, makes the width downcast fail and the `.unwrap()` panic (`none`). -/
def to_robj_col : PColumnData → Option RColumn
  | .floats .f64 cells => some (.doubles (cells.map fun c => c.getD .nan))
  | .floats _ _ => none
  | .ints .i32 cells => some (.integers (cells.map fun c => c.getD i32Min))
  | .ints _ _ => none
  | .strs cells => some (.strings (cells.map fun c => c.getD ""))
  | .dates cells => some (.dateVals (cells.map fun c => c.getD 0))
  | .other => some (.rnull)

/-- From the source (`helpers.rs` lines 51–76): `to_robj` converts the
columns left to right and assembles the named list; a panic in any
column's conversion aborts the whole call (`none`). -/
def to_robj : List PolarsSeries → Option (List (String × RColumn))
  | [] => some []
  | s :: rest =>
    match to_robj_col s.cells, to_robj rest with
    | some c, some t => some ((s.name, c) :: t)
    | _, _ => none

/-! Section: The `as i32` cast of the counting queries

`hierarchy.rs` lines 182–196: `n_series`, `n_bottom` and `n_periods`
return `self.inner.…() as i32`.  Rust's `usize as i32` truncates to the low
32 bits and reinterprets them as a signed 32-bit integer. -/

/-- Rust `usize as i32`: truncation modulo `2^32`, reinterpreted signed. -/
def toI32 (n : Nat) : Int :=
  let m : Nat := n % 2 ^ 32
  if m < 2 ^ 31 then (m : Int) else (m : Int) - 2 ^ 32

/-- From the source (`hierarchy.rs` line 182): `Hts::n_series` as exposed
to R, `self.inner.n_series() as i32`. -/
def Hts.n_series_r (h : Hts) : Int := toI32 h.n_series

/-- From the source (`hierarchy.rs` line 188): `Hts::n_bottom` as exposed
to R. -/
def Hts.n_bottom_r (h : Hts) : Int := toI32 h.n_bottom

/-- From the source (`hierarchy.rs` line 194): `Hts::n_periods` as exposed
to R. -/
def Hts.n_periods_r (h : Hts) : Int := toI32 h.n_periods

/-! Section: Lemmas on first-occurrence deduplication -/

theorem mem_dedupFirst {α : Type} [DecidableEq α] {a : α} {l : List α} :
    a ∈ dedupFirst l ↔ a ∈ l := by
  induction l with
  | nil => simp [dedupFirst]
  | cons b l ih =>
    by_cases hab : a = b
    · subst hab; simp [dedupFirst]
    · simp [dedupFirst, List.mem_filter, hab, ih]

theorem nodup_dedupFirst {α : Type} [DecidableEq α] (l : List α) :
    (dedupFirst l).Nodup := by
  induction l with
  | nil => simp [dedupFirst]
  | cons b l ih =>
    refine List.nodup_cons.2 ⟨?_, ih.filter _⟩
    simp [List.mem_filter]

theorem length_dedupFirst_le {α : Type} [DecidableEq α] (l : List α) :
    (dedupFirst l).length ≤ l.length := by
  induction l with
  | nil => simp [dedupFirst]
  | cons b l ih =>
    simp only [dedupFirst, List.length_cons, Nat.succ_le_succ_iff]
    exact le_trans (List.length_filter_le _ _) ih

theorem dedupFirst_eq_self {α : Type} [DecidableEq α] {l : List α}
    (h : l.Nodup) : dedupFirst l = l := by
  induction l with
  | nil => rfl
  | cons b l ih =>
    obtain ⟨hb, hl⟩ := List.nodup_cons.1 h
    rw [dedupFirst, ih hl]
    congr 1
    apply List.filter_eq_self.2
    intro x hx
    simp only [ne_eq, decide_eq_true_eq]
    exact fun hxb => hb (hxb ▸ hx)

theorem nodup_of_length_dedupFirst {α : Type} [DecidableEq α] {l : List α}
    (h : (dedupFirst l).length = l.length) : l.Nodup := by
  induction l with
  | nil => exact List.nodup_nil
  | cons b l ih =>
    rw [dedupFirst] at h
    simp only [List.length_cons, Nat.succ_inj] at h
    have hle := length_dedupFirst_le l
    have hfl := List.length_filter_le (fun x => decide (x ≠ b)) (dedupFirst l)
    have hlen : (dedupFirst l).length = l.length := by omega
    have hfilter : ((dedupFirst l).filter (fun x => x ≠ b)).length
        = (dedupFirst l).length := by omega
    have hfeq : (dedupFirst l).filter (fun x => x ≠ b) = dedupFirst l :=
      (List.filter_sublist (dedupFirst l)).eq_of_length hfilter
    refine List.nodup_cons.2 ⟨?_, ih hlen⟩
    intro hbl
    have hbd : b ∈ dedupFirst l := mem_dedupFirst.2 hbl
    have := List.filter_eq_self.1 hfeq b hbd
    simp at this

theorem hasDup_false_iff {α : Type} [DecidableEq α] (l : List α) :
    hasDup l = false ↔ l.Nodup := by
  unfold hasDup
  simp only [Bool.not_eq_false', beq_iff_eq]
  constructor
  · exact nodup_of_length_dedupFirst
  · intro h; rw [dedupFirst_eq_self h]

theorem toFinset_dedupFirst {α : Type} [DecidableEq α] (l : List α) :
    (dedupFirst l).toFinset = l.toFinset := by
  ext a
  simp [List.mem_toFinset, mem_dedupFirst]

/-- The length of the deduplicated list is the number of distinct elements
of the original. -/
theorem length_dedupFirst_eq_card {α : Type} [DecidableEq α] (l : List α) :
    (dedupFirst l).length = l.toFinset.card := by
  rw [← toFinset_dedupFirst, List.toFinset_card_of_nodup (nodup_dedupFirst l)]

/-! Section: Lemmas on engine construction -/

theorem Hts.new_ok {spec : HierarchySpec} {rows : List Row} {h : Hts}
    (hok : Hts.new spec rows = .ok h) :
    h.spec = spec ∧ h.rows = rows ∧
    h.keys = dedupFirst (rows.map rowKey) ∧
    h.nodes = enumerate spec (dedupFirst (rows.map rowKey)) ∧
    h.periods = dedupFirst (rows.map fun r => r.period) := by
  simp only [Hts.new] at hok
  split_ifs at hok
  cases hok
  exact ⟨rfl, rfl, rfl, rfl, rfl⟩

theorem Hts.new_of_bad_nesting {spec : HierarchySpec} {rows : List Row}
    (hn : nestingOk (dedupFirst (rows.map rowKey)) spec.hierarchy.length
      = false) :
    Hts.new spec rows = .error .InconsistentNesting := by
  simp [Hts.new, hn]

theorem Hts.new_of_dup {spec : HierarchySpec} {rows : List Row}
    (hn : nestingOk (dedupFirst (rows.map rowKey)) spec.hierarchy.length
      = true)
    (hd : hasDup (rows.map fun r => (rowKey r, r.period)) = true) :
    Hts.new spec rows = .error .DuplicateObservation := by
  simp [Hts.new, hn, hd]

theorem nestingOk_false_of_conflict {keys : List BottomKey} {depth : Nat}
    {k1 k2 : BottomKey} {i : Nat} {v : String}
    (h1 : k1 ∈ keys) (h2 : k2 ∈ keys) (hi : i < depth)
    (ha : k1.hvals[i+1]? = some v) (hb : k2.hvals[i+1]? = some v)
    (hne : k1.hvals[i]? ≠ k2.hvals[i]?) :
    nestingOk keys depth = false := by
  unfold nestingOk
  rw [List.all_eq_false]
  refine ⟨k1, h1, ?_⟩
  rw [Bool.not_eq_true, List.all_eq_false]
  refine ⟨k2, h2, ?_⟩
  rw [Bool.not_eq_true, List.all_eq_false]
  refine ⟨i, List.mem_range.2 hi, ?_⟩
  rw [Bool.not_eq_true]
  unfold nestStepOk
  rw [ha, hb]
  simp [hne]

/-- C4: HierarchySpec construction via `new(hierarchy, groups)` fails
with `InvalidSpecification` exactly when some column appears in both lists
or both lists are empty; in particular empty hierarchy with empty groups
is rejected rather than accepted. -/
theorem C4_invalid_specification (hierarchy groups : List String) :
    HierarchySpec.new hierarchy groups = .error .InvalidSpecification ↔
      ((hierarchy = [] ∧ groups = []) ∨ ∃ c, c ∈ hierarchy ∧ c ∈ groups) := by
  unfold HierarchySpec.new
  split_ifs with h1 h2
  · simp only [true_iff]
    left
    rw [Bool.and_eq_true, List.isEmpty_iff, List.isEmpty_iff] at h1
    exact h1
  · simp only [true_iff]
    right
    obtain ⟨c, hc, hcont⟩ := List.any_eq_true.1 h2
    exact ⟨c, hc, List.mem_of_elem_eq_true hcont⟩
  · simp only [false_iff]
    rintro (⟨he1, he2⟩ | ⟨c, hc, hg⟩)
    · subst he1; subst he2; simp at h1
    · exact h2 (List.any_eq_true.2 ⟨c, hc, List.elem_eq_true_of_mem hg⟩)

/-- C5: If during the key-extraction scan the same lower-hierarchy
value is observed under two different values of the hierarchy column above
it, construction fails with `InconsistentNesting` and no engine (hence no
summation matrix) is produced for that input. -/
theorem C5_inconsistent_nesting (spec : HierarchySpec) (rows : List Row)
    (r1 r2 : Row) (i : Nat) (v : String)
    (h1 : r1 ∈ rows) (h2 : r2 ∈ rows) (hi : i + 1 < spec.hierarchy.length)
    (ha : r1.hvals[i+1]? = some v) (hb : r2.hvals[i+1]? = some v)
    (hne : r1.hvals[i]? ≠ r2.hvals[i]?) :
    Hts.new spec rows = .error .InconsistentNesting :=
  Hts.new_of_bad_nesting
    (nestingOk_false_of_conflict
      (mem_dedupFirst.2 (List.mem_map_of_mem rowKey h1))
      (mem_dedupFirst.2 (List.mem_map_of_mem rowKey h2))
      (Nat.lt_of_succ_lt hi) ha hb hne)

/-- Witness for C5: the city value "Syd" appearing under the two states
"NSW" and "VIC" makes construction fail with `InconsistentNesting`. -/
theorem C5_witness :
    Hts.new ⟨["State", "City"], []⟩
      [⟨["NSW", "Syd"], [], 1, 1⟩, ⟨["VIC", "Syd"], [], 1, 2⟩]
      = .error .InconsistentNesting :=
  C5_inconsistent_nesting ⟨["State", "City"], []⟩
    [⟨["NSW", "Syd"], [], 1, 1⟩, ⟨["VIC", "Syd"], [], 1, 2⟩]
    ⟨["NSW", "Syd"], [], 1, 1⟩ ⟨["VIC", "Syd"], [], 1, 2⟩ 0 "Syd"
    (by decide) (by decide) (by decide) (by decide) (by decide) (by decide)

/-- C6: An input with a repeated (BottomKey, period) pair is never
accepted — equivalently, every accepted input has unique (BottomKey,
period) pairs — and once the scan reaches the uniqueness validation (the
nesting invariant holds) the reported error is `DuplicateObservation`. -/
theorem C6_duplicate_observation (spec : HierarchySpec) (rows : List Row)
    (hdup : ¬ (rows.map fun r => (rowKey r, r.period)).Nodup) :
    (∀ h : Hts, Hts.new spec rows ≠ .ok h) ∧
    (nestingOk (dedupFirst (rows.map rowKey)) spec.hierarchy.length = true →
      Hts.new spec rows = .error .DuplicateObservation) := by
  have hd : hasDup (rows.map fun r => (rowKey r, r.period)) = true := by
    cases hh : hasDup (rows.map fun r => (rowKey r, r.period))
    · exact absurd ((hasDup_false_iff _).1 hh) hdup
    · rfl
  constructor
  · intro h hok
    cases hcase : nestingOk (dedupFirst (rows.map rowKey))
        spec.hierarchy.length
    · rw [Hts.new_of_bad_nesting hcase] at hok; cases hok
    · rw [Hts.new_of_dup hcase hd] at hok; cases hok
  · intro hn
    exact Hts.new_of_dup hn hd

/-- Witness for C6: two observations with the same bottom key and period
(values 5 and 6) make construction fail with `DuplicateObservation`. -/
theorem C6_witness :
    Hts.new ⟨["a"], []⟩ [⟨["x"], [], 1, 5⟩, ⟨["x"], [], 1, 6⟩]
      = .error .DuplicateObservation :=
  (C6_duplicate_observation ⟨["a"], []⟩
    [⟨["x"], [], 1, 5⟩, ⟨["x"], [], 1, 6⟩] (by decide)).2 (by decide)

/-! Section: Sum-partition lemmas for the aggregation equivalence -/

theorem sum_filter_and_split {α : Type} (f : α → Int) (P Q : α → Bool)
    (l : List α) :
    ((l.filter fun r => P r && Q r).map f).sum
      + ((l.filter fun r => P r && !Q r).map f).sum
      = ((l.filter P).map f).sum := by
  induction l with
  | nil => simp
  | cons a l ih =>
    cases hP : P a <;> cases hQ : Q a <;>
      simp [List.filter_cons, hP, hQ] <;> omega

theorem sum_fiber_partition {α β : Type} [DecidableEq β] (key : α → β)
    (f : α → Int) :
    ∀ (keys : List β) (P : α → Bool) (l : List α), keys.Nodup →
    (∀ r ∈ l, P r = true → key r ∈ keys) →
    (keys.map fun k =>
      ((l.filter fun r => P r && (key r == k)).map f).sum).sum
      = ((l.filter P).map f).sum := by
  intro keys
  induction keys with
  | nil =>
    intro P l _ hcov
    have hnil : l.filter P = [] :=
      List.filter_eq_nil_iff.2 fun a ha hPa =>
        absurd (hcov a ha hPa) (List.not_mem_nil _)
    simp [hnil]
  | cons k ks ih =>
    intro P l hnd hcov
    obtain ⟨hk, hks⟩ := List.nodup_cons.1 hnd
    simp only [List.map_cons, List.sum_cons]
    have hcov' : ∀ r ∈ l, (P r && !(key r == k)) = true → key r ∈ ks := by
      intro r hr hPr
      rw [Bool.and_eq_true, Bool.not_eq_true', beq_eq_false_iff_ne] at hPr
      rcases List.mem_cons.1 (hcov r hr hPr.1) with heq | hmem
      · exact absurd heq hPr.2
      · exact hmem
    have htail : (ks.map fun k' =>
        ((l.filter fun r => P r && (key r == k')).map f).sum).sum
        = ((l.filter fun r => P r && !(key r == k)).map f).sum := by
      rw [← ih (fun r => P r && !(key r == k)) l hks hcov']
      apply congrArg
      apply List.map_congr_left
      intro k' hk'
      have hkk : k' ≠ k := fun h => hk (h ▸ hk')
      apply congrArg
      apply congrArg
      apply List.filter_congr
      intro r _
      cases hkey : key r == k'
      · simp [hkey]
      · have heqk : key r = k' := eq_of_beq hkey
        have : (key r == k) = false := beq_eq_false_iff_ne.2 (heqk ▸ hkk)
        simp [hkey, this]
    rw [htail, sum_filter_and_split]

theorem dotInt_map_map {α : Type} (f g : α → Int) (l : List α) :
    dotInt (l.map f) (l.map g) = (l.map fun k => f k * g k).sum := by
  induction l with
  | nil => rfl
  | cons a l ih =>
    simp only [List.map_cons, dotInt, List.zipWith_cons_cons, List.sum_cons]
    simp only [dotInt] at ih
    omega

/-- One row of the summation matrix dotted with the bottom-level value
vector equals the group-by-sum of the raw data over that node. -/
theorem node_dot_eq_groupBySum (h : Hts)
    (hnd : h.keys.Nodup)
    (hcov : ∀ r ∈ h.rows, rowKey r ∈ h.keys)
    (n : AggNode) (t : Nat) :
    dotInt (h.keys.map fun k => if memberOf n k then 1 else 0)
        (h.bottomVector t) = h.groupBySum n t := by
  unfold Hts.bottomVector
  rw [dotInt_map_map]
  unfold Hts.groupBySum
  rw [← sum_fiber_partition rowKey (fun r => r.value) h.keys
    (fun r => memberOf n (rowKey r) && r.period == t) h.rows hnd
    (fun r hr _ => hcov r hr)]
  apply congrArg
  apply List.map_congr_left
  intro k hk
  unfold Hts.bottomValue
  cases hmem : memberOf n k
  · have hnil : h.rows.filter (fun r =>
        (memberOf n (rowKey r) && r.period == t) && (rowKey r == k)) = [] := by
      apply List.filter_eq_nil_iff.2
      intro r _ hr
      simp only [Bool.and_eq_true, beq_iff_eq] at hr
      obtain ⟨⟨hm, _⟩, hkk⟩ := hr
      rw [hkk, hmem] at hm
      cases hm
    rw [hnil]
    simp
  · simp only [if_pos rfl, one_mul]
    have hfeq : h.rows.filter (fun r => rowKey r == k && r.period == t)
        = h.rows.filter (fun r =>
          (memberOf n (rowKey r) && r.period == t) && (rowKey r == k)) := by
      apply List.filter_congr
      intro r _
      cases hkey : rowKey r == k
      · simp [hkey]
      · have heqk : rowKey r = k := eq_of_beq hkey
        simp [hkey, heqk, hmem]
    rw [hfeq]
    simp

theorem snd_eq_of_mem_zip_map {α β : Type} (f : α → β) :
    ∀ (l : List α) (p : α × β), p ∈ l.zip (l.map f) → p.2 = f p.1 := by
  intro l
  induction l with
  | nil => intro p hp; cases hp
  | cons a l ih =>
    intro p hp
    simp only [List.map_cons, List.zip_cons_cons, List.mem_cons] at hp
    rcases hp with rfl | hp
    · rfl
    · exact ih p hp

/-- C1: For a constructed engine, multiplying the summation matrix by
the bottom-level value vector of any fixed period yields, row for row,
exactly the group-by-sum over the raw bottom data of the bottom series
whose matrix entry for that node is 1 — so every value `aggregate_all()`
emits agrees with the independent group-by-sum recomputation. -/
theorem C1_aggregate_roundtrip (spec : HierarchySpec) (rows : List Row)
    (h : Hts) (hok : Hts.new spec rows = .ok h) :
    (∀ t : Nat, matVec h.summationMatrix (h.bottomVector t)
      = h.nodes.map fun n => h.groupBySum n t) ∧
    (∀ x ∈ h.aggregate_all, x.2.2 = h.groupBySum x.1 x.2.1) := by
  obtain ⟨-, hrows, hkeys, -, -⟩ := Hts.new_ok hok
  have hnd : h.keys.Nodup := by rw [hkeys]; exact nodup_dedupFirst _
  have hcov : ∀ r ∈ h.rows, rowKey r ∈ h.keys := by
    intro r hr
    rw [hkeys]
    rw [hrows] at hr
    exact mem_dedupFirst.2 (List.mem_map_of_mem rowKey hr)
  have hmat : ∀ t : Nat, matVec h.summationMatrix (h.bottomVector t)
      = h.nodes.map fun n => h.groupBySum n t := by
    intro t
    unfold Hts.summationMatrix matVec
    rw [List.map_map]
    apply List.map_congr_left
    intro n _
    exact node_dot_eq_groupBySum h hnd hcov n t
  refine ⟨hmat, ?_⟩
  intro x hx
  unfold Hts.aggregate_all at hx
  rw [List.mem_flatMap] at hx
  obtain ⟨t, ht, hx⟩ := hx
  rw [List.mem_map] at hx
  obtain ⟨p, hp, rfl⟩ := hx
  rw [hmat t] at hp
  exact snd_eq_of_mem_zip_map _ h.nodes p hp

/-- Witness for C1: on the worked example the matrix–vector product at
period 1 agrees with the group-by-sum recomputation for every node. -/
theorem C1_witness :
    matVec exHts.summationMatrix (exHts.bottomVector 1)
      = exHts.nodes.map fun n => exHts.groupBySum n 1 :=
  (C1_aggregate_roundtrip exSpec exRows exHts (by rfl)).1 1

/-! Section: The cast of the counting queries (C10) and column conversion (C9) -/

theorem toI32_spec (n : Nat) (hn : 2 ^ 31 - 1 < n) :
    toI32 n ≠ (n : Int) ∧ -2 ^ 31 ≤ toI32 n ∧ toI32 n < 2 ^ 31 ∧
      toI32 n % 2 ^ 32 = (n : Int) % 2 ^ 32 := by
  simp only [toI32]
  split_ifs with h <;> refine ⟨?_, ?_, ?_, ?_⟩ <;> omega

/-- C10: The counting queries return the usize count cast with `as
i32`: for each of the three queries independently, whenever that query's
true count exceeds `i32::MAX`, the R-visible value is the count truncated
modulo `2^32` and reinterpreted signed — inside the i32 range, congruent
to the count modulo `2^32`, and different from the true count — rather
than the true count or an error. -/
theorem C10_counts_wrap (h : Hts) :
    (2 ^ 31 - 1 < h.n_series →
      h.n_series_r ≠ (h.n_series : Int) ∧ -2 ^ 31 ≤ h.n_series_r ∧
      h.n_series_r < 2 ^ 31 ∧
      h.n_series_r % 2 ^ 32 = (h.n_series : Int) % 2 ^ 32) ∧
    (2 ^ 31 - 1 < h.n_bottom →
      h.n_bottom_r ≠ (h.n_bottom : Int) ∧ -2 ^ 31 ≤ h.n_bottom_r ∧
      h.n_bottom_r < 2 ^ 31 ∧
      h.n_bottom_r % 2 ^ 32 = (h.n_bottom : Int) % 2 ^ 32) ∧
    (2 ^ 31 - 1 < h.n_periods →
      h.n_periods_r ≠ (h.n_periods : Int) ∧ -2 ^ 31 ≤ h.n_periods_r ∧
      h.n_periods_r < 2 ^ 31 ∧
      h.n_periods_r % 2 ^ 32 = (h.n_periods : Int) % 2 ^ 32) :=
  ⟨fun hs => toI32_spec _ hs, fun hb => toI32_spec _ hb,
    fun hp => toI32_spec _ hp⟩

/-- Witness for C10: an engine with `2^31` nodes but no bottom keys and no
periods — only `n_series` overflows — reports an `n_series` value
different from its true node count. -/
theorem C10_witness : bigEngine.n_series_r ≠ (bigEngine.n_series : Int) :=
  ((C10_counts_wrap bigEngine).1
    (by norm_num [bigEngine, Hts.n_series])).1

theorem to_robj_isSome_iff (df : List PolarsSeries) :
    (to_robj df).isSome = true ↔
      ∀ s ∈ df, (to_robj_col s.cells).isSome = true := by
  induction df with
  | nil => simp [to_robj]
  | cons s rest ih =>
    rw [to_robj]
    cases hc : to_robj_col s.cells with
    | none =>
      simp only [List.mem_cons]
      constructor
      · intro habs
        cases habs
      · intro hall
        have := hall s (Or.inl rfl)
        rw [hc] at this
        cases this
    | some c =>
      cases ht : to_robj rest with
      | none =>
        simp only [List.mem_cons]
        constructor
        · intro habs
          cases habs
        · intro hall
          have hrest : (to_robj rest).isSome = true :=
            ih.2 fun x hx => hall x (Or.inr hx)
          rw [ht] at hrest
          cases hrest
      | some t =>
        rw [ht] at ih
        simp only [Option.isSome_some, true_iff] at ih
        simp only [Option.isSome_some, List.mem_cons, true_iff]
        rintro x (rfl | hx)
        · rw [hc]; rfl
        · exact ih x hx

/-- Counterexample for C9: a null cell in an Int64 column neither becomes
`i32::MIN` nor R `NULL` — `is_integer()` takes the integer branch and
`s.i32().unwrap()` panics, so `to_robj` raises a conversion error after
all. -/
theorem C9_counterexample :
    to_robj [⟨"n", .ints .i64 [none]⟩] = none := rfl

/-- C9 (amended): for the physical widths the source's accessors handle,
`to_robj` silently substitutes defaults for missing values — a null in a
Float64 column becomes `NaN`, a null in an Int32 column becomes
`i32::MIN`, a null in a String column becomes `""`, a null in a Date
column becomes `0`, a column of any dtype outside the four handled
categories becomes R `NULL`, and a data frame of such columns always
converts — but a float column that is not Float64 or an integer column
that is not Int32 makes the accessor's `.unwrap()` panic instead of
converting, so `to_robj` fails exactly when some column's conversion
panics. -/
theorem C9_to_robj_null_defaults (df : List PolarsSeries)
    (xf : List (Option RDouble)) (xi : List (Option Int))
    (xs : List (Option String)) (xd : List (Option Int)) (i : Nat)
    (fw : PFloatWidth) (iw : PIntWidth)
    (hf : xf[i]? = some none) (hn : xi[i]? = some none)
    (hs : xs[i]? = some none) (hd : xd[i]? = some none)
    (hfw : fw ≠ .f64) (hiw : iw ≠ .i32) :
    ((to_robj df).isSome = true ↔
      ∀ s ∈ df, (to_robj_col s.cells).isSome = true) ∧
    (∃ w, to_robj_col (.floats .f64 xf) = some (.doubles w) ∧
      w[i]? = some .nan) ∧
    (∃ w, to_robj_col (.ints .i32 xi) = some (.integers w) ∧
      w[i]? = some i32Min) ∧
    (∃ w, to_robj_col (.strs xs) = some (.strings w) ∧ w[i]? = some "") ∧
    (∃ w, to_robj_col (.dates xd) = some (.dateVals w) ∧ w[i]? = some 0) ∧
    to_robj_col .other = some .rnull ∧
    to_robj_col (.floats fw xf) = none ∧
    to_robj_col (.ints iw xi) = none := by
  refine ⟨to_robj_isSome_iff df, ⟨_, rfl, ?_⟩, ⟨_, rfl, ?_⟩, ⟨_, rfl, ?_⟩,
    ⟨_, rfl, ?_⟩, rfl, ?_, ?_⟩
  · rw [List.getElem?_map]; simp [hf]
  · rw [List.getElem?_map]; simp [hn]
  · rw [List.getElem?_map]; simp [hs]
  · rw [List.getElem?_map]; simp [hd]
  · cases fw
    · rfl
    · exact absurd rfl hfw
  · cases iw <;> first | rfl | exact absurd rfl hiw

/-- Witness for C9: a null Int64 cell makes the conversion panic rather
than receive a default. -/
theorem C9_witness : to_robj_col (.ints .i64 [none]) = none :=
  (C9_to_robj_null_defaults [] [none] [none] [none] [none] 0 .f32 .i64
    rfl rfl rfl rfl (by decide) (by decide)).2.2.2.2.2.2.2

theorem applyMask_zip_all (m : List Bool) :
    ∀ (g : List String),
    ((applyMask m g).zip g).all (fun gv =>
      match gv.1 with
      | none => true
      | some w => w == gv.2) = true := by
  induction m with
  | nil => intro g; simp [applyMask]
  | cons b m ih =>
    intro g
    cases g with
    | nil => simp [applyMask]
    | cons v g =>
      simp only [applyMask, List.zipWith_cons_cons, List.zip_cons_cons,
        List.all_cons, Bool.and_eq_true]
      refine ⟨?_, ih g⟩
      cases b <;> simp

theorem backed_of_mem_nodesAtPath {keys : List BottomKey} {nG : Nat}
    {p : List String} {n : AggNode} (hn : n ∈ nodesAtPath keys nG p) :
    ∃ k ∈ keys, memberOf n k = true := by
  unfold nodesAtPath at hn
  rw [List.mem_flatMap] at hn
  obtain ⟨m, _, hn⟩ := hn
  rw [List.mem_map] at hn
  obtain ⟨a, ha, rfl⟩ := hn
  rw [mem_dedupFirst, List.mem_map] at ha
  obtain ⟨k, hk, rfl⟩ := ha
  rw [List.mem_filter] at hk
  refine ⟨k, hk.1, ?_⟩
  unfold memberOf
  rw [Bool.and_eq_true]
  exact ⟨hk.2, applyMask_zip_all m k.gvals⟩

theorem backed_of_mem_enumerate {spec : HierarchySpec}
    {keys : List BottomKey} {n : AggNode}
    (hn : n ∈ enumerate spec keys) : ∃ k ∈ keys, memberOf n k = true := by
  unfold enumerate at hn
  rw [mem_dedupFirst, List.mem_flatMap] at hn
  obtain ⟨i, _, hn⟩ := hn
  unfold nodesAtDepth at hn
  rw [List.mem_flatMap] at hn
  obtain ⟨p, _, hn⟩ := hn
  exact backed_of_mem_nodesAtPath hn

/-- C7: Every node the level enumerator creates is supported by at
least one observed bottom key, and no node identity appears twice in the
enumerated node list. -/
theorem C7_no_empty_no_duplicate_nodes (spec : HierarchySpec)
    (rows : List Row) (h : Hts) (hok : Hts.new spec rows = .ok h) :
    (∀ n ∈ h.nodes, ∃ k ∈ h.keys, memberOf n k = true) ∧
    h.nodes.Nodup := by
  obtain ⟨-, -, hkeys, hnodes, -⟩ := Hts.new_ok hok
  constructor
  · intro n hn
    rw [hnodes] at hn
    rw [hkeys]
    exact backed_of_mem_enumerate hn
  · rw [hnodes]
    exact nodup_dedupFirst _

/-- Witness for C7: on the worked example the enumerated node list is
duplicate-free. -/
theorem C7_witness : exHts.nodes.Nodup :=
  (C7_no_empty_no_duplicate_nodes exSpec exRows exHts (by rfl)).2

/-- C8: Construction is deterministic: two engines built from the same
spec and input agree on everything (node set and order, keys, matrix,
counts), and `n_series()` is exactly the number of enumerated nodes. -/
theorem C8_deterministic_construction (spec : HierarchySpec)
    (rows : List Row) (h1 h2 : Hts)
    (hok1 : Hts.new spec rows = .ok h1)
    (hok2 : Hts.new spec rows = .ok h2) :
    h1.nodes = h2.nodes ∧ h1.keys = h2.keys ∧ h1.periods = h2.periods ∧
    h1.summationMatrix = h2.summationMatrix ∧
    h1.n_series = h2.n_series ∧ h1.n_bottom = h2.n_bottom ∧
    h1.n_series = (enumerate spec (dedupFirst (rows.map rowKey))).length := by
  have h12 : h1 = h2 := by
    rw [hok1] at hok2
    cases hok2
    rfl
  subst h12
  obtain ⟨-, -, -, hnodes, -⟩ := Hts.new_ok hok1
  refine ⟨rfl, rfl, rfl, rfl, rfl, rfl, ?_⟩
  unfold Hts.n_series
  rw [hnodes]

/-- Witness for C8: the worked example rebuilt twice yields the same node
count, which equals the number of enumerated nodes. -/
theorem C8_witness :
    exHts.n_series = (enumerate exSpec (dedupFirst (exRows.map rowKey))).length :=
  (C8_deterministic_construction exSpec exRows exHts exHts
    (by rfl) (by rfl)).2.2.2.2.2.2

theorem memberOf_grandTotal (G : Nat) (k : BottomKey) :
    memberOf ⟨[], List.replicate G none⟩ k = true := by
  unfold memberOf
  rw [Bool.and_eq_true]
  refine ⟨rfl, ?_⟩
  rw [List.all_eq_true]
  rintro ⟨g1, g2⟩ hgv
  have h1 := (List.of_mem_zip hgv).1
  have hnone : g1 = none := List.eq_of_mem_replicate h1
  subst hnone
  rfl

theorem dedupFirst_replicate_succ {α : Type} [DecidableEq α] (a : α)
    (n : Nat) : dedupFirst (List.replicate (n + 1) a) = [a] := by
  induction n with
  | zero => rfl
  | succ n ih =>
    rw [List.replicate_succ]
    rw [show dedupFirst (a :: List.replicate (n + 1) a)
      = a :: (dedupFirst (List.replicate (n + 1) a)).filter (fun b => b ≠ a)
      from rfl]
    rw [ih]
    simp

theorem allMasks_head (G : Nat) :
    ∃ rest, allMasks G = List.replicate G false :: rest := by
  induction G with
  | zero => exact ⟨[], rfl⟩
  | succ G ih =>
    obtain ⟨rest, hrest⟩ := ih
    refine ⟨rest.map (false :: ·) ++ (allMasks G).map (true :: ·), ?_⟩
    rw [show allMasks (G + 1)
      = (allMasks G).map (false :: ·) ++ (allMasks G).map (true :: ·)
      from rfl, hrest]
    simp [List.replicate_succ]

theorem applyMask_replicate_false (g : List String) :
    ∀ (n : Nat), g.length = n →
    applyMask (List.replicate n false) g = List.replicate n none := by
  induction g with
  | nil =>
    intro n hn
    subst hn
    rfl
  | cons v g ih =>
    intro n hn
    cases n with
    | zero => simp at hn
    | succ n =>
      rw [List.replicate_succ]
      rw [show applyMask (false :: List.replicate n false) (v :: g)
        = (if false then some v else none)
          :: applyMask (List.replicate n false) g from rfl]
      rw [ih n (by simpa using hn)]
      simp [List.replicate_succ]

theorem nodesAtPath_nil_head (keys : List BottomKey) (G : Nat)
    (hne : keys ≠ []) (hwfg : ∀ k ∈ keys, k.gvals.length = G) :
    ∃ rest, nodesAtPath keys G []
      = AggNode.mk [] (List.replicate G none) :: rest := by
  obtain ⟨m0rest, hm0⟩ := allMasks_head G
  unfold nodesAtPath
  have hmatch : (keys.filter fun k => hpathMatches [] k.hvals) = keys :=
    List.filter_eq_self.2 fun k _ => rfl
  rw [hmatch, hm0, List.flatMap_cons]
  have hconst : keys.map (fun k => applyMask (List.replicate G false) k.gvals)
      = List.replicate keys.length (List.replicate G none) := by
    have hmem : ∀ b ∈ keys.map
        (fun k => applyMask (List.replicate G false) k.gvals),
        b = List.replicate G none := by
      intro b hb
      rw [List.mem_map] at hb
      obtain ⟨k, hk, rfl⟩ := hb
      exact applyMask_replicate_false k.gvals G (hwfg k hk)
    have := List.eq_replicate_of_mem hmem
    rwa [List.length_map] at this
  rw [hconst]
  obtain ⟨k0, krest, rfl⟩ := List.exists_cons_of_ne_nil hne
  rw [show (k0 :: krest).length = krest.length + 1 from rfl]
  rw [dedupFirst_replicate_succ]
  exact ⟨_, rfl⟩

theorem enumerate_head (spec : HierarchySpec) (keys : List BottomKey)
    (hne : keys ≠ [])
    (hwfg : ∀ k ∈ keys, k.gvals.length = spec.groups.length) :
    ∃ rest, enumerate spec keys = grandTotal spec :: rest := by
  unfold enumerate
  rw [List.range_succ_eq_map, List.flatMap_cons]
  have hd0 : nodesAtDepth keys spec.groups.length 0
      = nodesAtPath keys spec.groups.length [] := by
    unfold nodesAtDepth
    have htz : keys.map (fun k => k.hvals.take 0)
        = List.replicate keys.length [] := by
      have hmem : ∀ b ∈ keys.map (fun k => k.hvals.take 0), b = [] := by
        intro b hb
        rw [List.mem_map] at hb
        obtain ⟨k, _, rfl⟩ := hb
        rfl
      have := List.eq_replicate_of_mem hmem
      rwa [List.length_map] at this
    rw [htz]
    obtain ⟨k0, krest, rfl⟩ := List.exists_cons_of_ne_nil hne
    rw [show (k0 :: krest).length = krest.length + 1 from rfl]
    rw [dedupFirst_replicate_succ]
    simp
  rw [hd0]
  obtain ⟨r1, hr1⟩ := nodesAtPath_nil_head keys spec.groups.length hne hwfg
  rw [hr1, List.cons_append]
  exact ⟨_, rfl⟩

/-- C2: For every engine constructed from nonempty well-formed data,
the grand-total node is the first matrix row, that row is all ones, and
for every period its aggregate — both as the matrix-row dot product with
the bottom vector and as the group-by-sum — equals the sum of all
bottom-level values of that period. -/
theorem C2_grand_total_row (spec : HierarchySpec) (rows : List Row)
    (h : Hts) (hok : Hts.new spec rows = .ok h) (hne : rows ≠ [])
    (hwf : wf spec rows) :
    h.nodes.head? = some (grandTotal spec) ∧
    h.summationMatrix.head? = some (List.replicate h.n_bottom (1 : Int)) ∧
    (∀ t : Nat, dotInt (List.replicate h.n_bottom 1) (h.bottomVector t)
      = ((h.rows.filter fun r => r.period == t).map fun r => r.value).sum) ∧
    (∀ t : Nat, h.groupBySum (grandTotal spec) t
      = ((h.rows.filter fun r => r.period == t).map fun r => r.value).sum) := by
  obtain ⟨-, hrows, hkeys, hnodes, -⟩ := Hts.new_ok hok
  have hKne : dedupFirst (rows.map rowKey) ≠ [] := by
    obtain ⟨r0, rrest, rfl⟩ := List.exists_cons_of_ne_nil hne
    simp [dedupFirst]
  have hKwf : ∀ k ∈ dedupFirst (rows.map rowKey),
      k.gvals.length = spec.groups.length := by
    intro k hk
    rw [mem_dedupFirst, List.mem_map] at hk
    obtain ⟨r, hr, rfl⟩ := hk
    exact (hwf r hr).2
  obtain ⟨rest, henum⟩ := enumerate_head spec _ hKne hKwf
  have hnd : h.keys.Nodup := by rw [hkeys]; exact nodup_dedupFirst _
  have hcov : ∀ r ∈ h.rows, rowKey r ∈ h.keys := by
    intro r hr
    rw [hkeys]
    rw [hrows] at hr
    exact mem_dedupFirst.2 (List.mem_map_of_mem rowKey hr)
  have hrow : h.keys.map
      (fun k => if memberOf (grandTotal spec) k then (1 : Int) else 0)
      = List.replicate h.keys.length 1 := by
    have hmem : ∀ b ∈ h.keys.map
        (fun k => if memberOf (grandTotal spec) k then (1 : Int) else 0),
        b = 1 := by
      intro b hb
      rw [List.mem_map] at hb
      obtain ⟨k, _, rfl⟩ := hb
      simp [grandTotal, memberOf_grandTotal]
    have := List.eq_replicate_of_mem hmem
    rwa [List.length_map] at this
  have hgbs : ∀ t : Nat, h.groupBySum (grandTotal spec) t
      = ((h.rows.filter fun r => r.period == t).map fun r => r.value).sum := by
    intro t
    unfold Hts.groupBySum
    apply congrArg
    apply congrArg
    apply List.filter_congr
    intro r _
    simp [grandTotal, memberOf_grandTotal]
  refine ⟨?_, ?_, ?_, hgbs⟩
  · rw [hnodes, henum]
    rfl
  · unfold Hts.summationMatrix
    rw [hnodes, henum, List.map_cons]
    show some _ = some _
    apply congrArg
    rw [hrow]
    rfl
  · intro t
    have hrepl : List.replicate h.n_bottom (1 : Int)
        = h.keys.map
          (fun k => if memberOf (grandTotal spec) k then (1 : Int) else 0) := by
      rw [hrow]
      rfl
    rw [hrepl, node_dot_eq_groupBySum h hnd hcov (grandTotal spec) t]
    exact hgbs t

/-- Witness for C2: on the worked example the first matrix row is the
all-ones row over the 8 bottom series. -/
theorem C2_witness :
    exHts.summationMatrix.head? = some (List.replicate exHts.n_bottom (1 : Int)) :=
  (C2_grand_total_row exSpec exRows exHts (by rfl) (by decide)
    (by unfold wf; decide)).2.1

theorem hpathMatches_refl (l : List String) : hpathMatches l l = true := by
  induction l with
  | nil => rfl
  | cons a l ih => simp [hpathMatches, ih]

theorem hpathMatches_eq_of_length :
    ∀ (l l' : List String), l.length = l'.length →
    (hpathMatches l l' = true ↔ l = l') := by
  intro l
  induction l with
  | nil =>
    intro l' hlen
    have : l' = [] := (List.eq_nil_of_length_eq_zero hlen.symm)
    subst this
    simp [hpathMatches]
  | cons a p ih =>
    intro l' hlen
    cases l' with
    | nil => simp at hlen
    | cons b l'' =>
      simp only [hpathMatches, Bool.and_eq_true, beq_iff_eq, List.cons.injEq]
      rw [ih l'' (by simpa using hlen)]

theorem some_zip_all_iff :
    ∀ (g g' : List String), g.length = g'.length →
    (((g.map some).zip g').all (fun gv =>
      match gv.1 with
      | none => true
      | some w => w == gv.2) = true ↔ g = g') := by
  intro g
  induction g with
  | nil =>
    intro g' hlen
    have : g' = [] := (List.eq_nil_of_length_eq_zero hlen.symm)
    subst this
    simp
  | cons v g ih =>
    intro g' hlen
    cases g' with
    | nil => simp at hlen
    | cons w g'' =>
      simp only [List.map_cons, List.zip_cons_cons, List.all_cons,
        Bool.and_eq_true, List.cons.injEq]
      rw [ih g'' (by simpa using hlen)]
      simp only [beq_iff_eq]

theorem memberOf_bottomNode_iff (k k' : BottomKey)
    (hh : k.hvals.length = k'.hvals.length)
    (hg : k.gvals.length = k'.gvals.length) :
    (memberOf (bottomNode k) k' = true ↔ k = k') := by
  unfold memberOf bottomNode
  rw [Bool.and_eq_true]
  rw [hpathMatches_eq_of_length _ _ hh]
  rw [some_zip_all_iff _ _ hg]
  constructor
  · rintro ⟨h1, h2⟩
    cases k
    cases k'
    simp_all
  · rintro rfl
    exact ⟨rfl, rfl⟩

theorem replicate_true_mem_allMasks (G : Nat) :
    List.replicate G true ∈ allMasks G := by
  induction G with
  | zero => simp [allMasks]
  | succ G ih =>
    rw [List.replicate_succ]
    unfold allMasks
    rw [List.mem_append]
    right
    exact List.mem_map_of_mem _ ih

theorem applyMask_replicate_true (g : List String) :
    applyMask (List.replicate g.length true) g = g.map some := by
  induction g with
  | nil => rfl
  | cons v g ih =>
    rw [show (v :: g).length = g.length + 1 from rfl, List.replicate_succ]
    rw [show applyMask (true :: List.replicate g.length true) (v :: g)
      = (if true then some v else none)
        :: applyMask (List.replicate g.length true) g from rfl]
    rw [ih]
    simp

theorem bottomNode_mem_enumerate (spec : HierarchySpec)
    (keys : List BottomKey) (k : BottomKey) (hk : k ∈ keys)
    (hD : k.hvals.length = spec.hierarchy.length)
    (hG : k.gvals.length = spec.groups.length) :
    bottomNode k ∈ enumerate spec keys := by
  unfold enumerate
  rw [mem_dedupFirst, List.mem_flatMap]
  refine ⟨spec.hierarchy.length, List.mem_range.2 (Nat.lt_succ_self _), ?_⟩
  unfold nodesAtDepth
  rw [List.mem_flatMap]
  refine ⟨k.hvals.take spec.hierarchy.length,
    mem_dedupFirst.2 (List.mem_map_of_mem _ hk), ?_⟩
  rw [← hD, List.take_length]
  unfold nodesAtPath
  rw [List.mem_flatMap]
  refine ⟨List.replicate spec.groups.length true,
    replicate_true_mem_allMasks _, ?_⟩
  rw [List.mem_map]
  refine ⟨k.gvals.map some, ?_, rfl⟩
  rw [mem_dedupFirst, List.mem_map]
  refine ⟨k, ?_, ?_⟩
  · rw [List.mem_filter]
    exact ⟨hk, hpathMatches_refl k.hvals⟩
  · rw [← hG, applyMask_replicate_true]

/-- C3: For every accepted well-formed input, `n_bottom()` equals the
number of distinct (hierarchy-path, group-values) combinations observed in
the data; the bottom keys are pairwise distinct, each bottom key's
promoted node is among the enumerated rows, and such a bottom row has a 1
exactly in its own column (an identity submatrix). -/
theorem C3_bottom_identity (spec : HierarchySpec) (rows : List Row)
    (h : Hts) (hok : Hts.new spec rows = .ok h) (hwf : wf spec rows) :
    h.n_bottom = (rows.map rowKey).toFinset.card ∧
    h.keys.Nodup ∧
    (∀ k ∈ h.keys, bottomNode k ∈ h.nodes) ∧
    (∀ k ∈ h.keys, ∀ k' ∈ h.keys,
      (memberOf (bottomNode k) k' = true ↔ k = k')) := by
  obtain ⟨-, -, hkeys, hnodes, -⟩ := Hts.new_ok hok
  have hlen : ∀ k ∈ h.keys, k.hvals.length = spec.hierarchy.length ∧
      k.gvals.length = spec.groups.length := by
    intro k hk
    rw [hkeys, mem_dedupFirst, List.mem_map] at hk
    obtain ⟨r, hr, rfl⟩ := hk
    exact hwf r hr
  refine ⟨?_, ?_, ?_, ?_⟩
  · unfold Hts.n_bottom
    rw [hkeys, length_dedupFirst_eq_card]
  · rw [hkeys]
    exact nodup_dedupFirst _
  · intro k hk
    rw [hnodes]
    refine bottomNode_mem_enumerate spec _ k ?_ (hlen k hk).1 (hlen k hk).2
    rw [← hkeys]
    exact hk
  · intro k hk k' hk'
    exact memberOf_bottomNode_iff k k'
      ((hlen k hk).1.trans (hlen k' hk').1.symm)
      ((hlen k hk).2.trans (hlen k' hk').2.symm)

/-- Witness for C3: on the worked example `n_bottom()` is the number of
distinct key combinations in the raw data. -/
theorem C3_witness :
    exHts.n_bottom = (exRows.map rowKey).toFinset.card :=
  (C3_bottom_identity exSpec exRows exHts (by rfl) (by unfold wf; decide)).1
